import Mathlib

/-!
Shallow embedding of `src/pairwise_ranking.py`: a FastAPI service that
distributes pairwise-comparison rating tasks, tracks per-rater randomized
session progress, aggregates vote scores, and persists state as a snapshot.

Python dicts are modelled as follows:
* `aggregate_scores` (candidate → int) is a `ScoreDict`: an explicit key list
  plus a total valuation function; reads/writes of absent keys are `KeyError`s,
  modelled by `Option`.
* `rater_sessions` is a total function `String → Option Session` (lookup of an
  absent rater yields `none`, i.e. a `KeyError` where the code indexes it).
* The JSON progress file is a `Snapshot` value (`none` when the file does not
  exist); `save_progress`/`load_progress` operate on it at the data level.
-/

namespace PairwiseRanking

/-- The free-form input payload of a datapoint (`inp["input"]`), which may
carry a text prompt and/or an image reference. -/
structure InputPayload where
  text : Option String
  image : Option String
deriving DecidableEq, Repr

/-- One entry of `experiment_data["inputs"]`. -/
structure Datapoint where
  id : String
  input : InputPayload
deriving DecidableEq, Repr

/-- The experiment definition loaded from `DATA_JSON_FILE`: `weights`,
`inputs`, and the per-candidate output arrays `outputs[w]` (here a total
function; a structurally valid definition has an array of length
`inputs_data.length` for each weight). -/
structure ExperimentDefinition where
  weights : List String
  inputs_data : List Datapoint
  outputs : String → List String

/-- One pairwise comparison task, as appended by the build loop at
`pairwise_ranking.py:74-81`. -/
structure Task where
  datapoint_id : String
  input : InputPayload
  left_weight : String
  right_weight : String
  left_output : String
  right_output : String
deriving DecidableEq, Repr

instance : Inhabited Task :=
  ⟨⟨"", ⟨none, none⟩, "", "", "", ""⟩⟩

/-- Embedding of `itertools.combinations(l, 2)` in its enumeration order: for each element
`x`, pair it with every later element, earlier elements on the left. -/
def combinations2 : List String → List (String × String)
  | [] => []
  | x :: xs => (xs.map fun y => (x, y)) ++ combinations2 xs

/-- The inner body of the task build loop for one datapoint at position `i`,
then the remaining datapoints (`pairwise_ranking.py:72-81`; `outputs[w][i]` is
modelled totally via `getD`, which agrees with the source whenever the
definition is structurally valid, i.e. `i` is in range). -/
def tasksAux (outputs : String → List String) (weights : List String) :
    Nat → List Datapoint → List Task
  | _, [] => []
  | i, inp :: rest =>
      ((combinations2 weights).map fun p =>
        { datapoint_id := inp.id
          input := inp.input
          left_weight := p.1
          right_weight := p.2
          left_output := (outputs p.1).getD i ""
          right_output := (outputs p.2).getD i "" }) ++
      tasksAux outputs weights (i + 1) rest

/-- The global `tasks` list: the full task list generated once at startup
(`pairwise_ranking.py:71-81`). -/
def tasks (ed : ExperimentDefinition) : List Task :=
  tasksAux ed.outputs ed.weights 0 ed.inputs_data

/-- Boolean test: does task `t` belong to datapoint `d` and compare the
unordered candidate pair `{a, b}`? -/
def matchesPair (d a b : String) (t : Task) : Bool :=
  t.datapoint_id == d &&
    ((t.left_weight == a && t.right_weight == b) ||
     (t.left_weight == b && t.right_weight == a))

/-- Boolean test on an enumerated pair: is `p` the unordered pair `{a, b}`? -/
def pairMatches (a b : String) (p : String × String) : Bool :=
  (p.1 == a && p.2 == b) || (p.1 == b && p.2 == a)

/-- A Python `dict` from candidate identifier to integer score: the list of
keys present, and the stored value at each present key. -/
structure ScoreDict where
  keys : List String
  val : String → Int

/-- One `d[k] += delta` mutation on a score dict: `KeyError` (`none`) when `k` is absent. -/
def dictAdd (d : ScoreDict) (k : String) (delta : Int) : Option ScoreDict :=
  if k ∈ d.keys then
    some ⟨d.keys, fun c => if c = k then d.val c + delta else d.val c⟩
  else
    none

/-- Two sequential in-place `+=` mutations as performed by one scoring branch
of `submit_rating`; the `Bool` is `true` when a `KeyError` was raised, and the
returned dict is the state at that moment (the first mutation is not rolled
back when the second raises). -/
def addBoth (d : ScoreDict) (lw : String) (dl : Int) (rw : String) (dr : Int) :
    Bool × ScoreDict :=
  match dictAdd d lw dl with
  | none => (true, d)
  | some d1 =>
    match dictAdd d1 rw dr with
    | none => (true, d1)
    | some d2 => (false, d2)

/-- The four-way scoring block of `submit_rating`
(`pairwise_ranking.py:303-314`): branch on `(l_sel, r_sel)` and mutate
`aggregate_scores`; any other selector combination falls through with no
mutation. -/
def applyVote (d : ScoreDict) (left_weight right_weight : String)
    (l_sel r_sel : Int) : Bool × ScoreDict :=
  if l_sel = 1 ∧ r_sel = 0 then addBoth d left_weight 1 right_weight (-1)
  else if l_sel = 0 ∧ r_sel = 1 then addBoth d left_weight (-1) right_weight 1
  else if l_sel = 1 ∧ r_sel = 1 then addBoth d left_weight 1 right_weight 1
  else if l_sel = 0 ∧ r_sel = 0 then addBoth d left_weight (-1) right_weight (-1)
  else (false, d)

/-- The net change a vote makes to the sum of all scores, read off the scoring
table: opposite selections cancel, both-selected adds 2, neither subtracts 2,
and out-of-range selectors change nothing. -/
def voteDelta (l_sel r_sel : Int) : Int :=
  if l_sel = 1 ∧ r_sel = 0 then 0
  else if l_sel = 0 ∧ r_sel = 1 then 0
  else if l_sel = 1 ∧ r_sel = 1 then 2
  else if l_sel = 0 ∧ r_sel = 0 then -2
  else 0

/-- The sum of all scores across all candidates of the dict. -/
def sumScores (d : ScoreDict) : Int :=
  (d.keys.map d.val).sum

/-- One submitted vote: the displayed pair and the two parsed selectors. -/
structure Vote where
  left_weight : String
  right_weight : String
  left_selected : Int
  right_selected : Int

/-- Fold a sequence of votes through the scoring block, keeping the mutated
dict of each step. -/
def applyVotes (d : ScoreDict) (votes : List Vote) : ScoreDict :=
  votes.foldl
    (fun s v => (applyVote s v.left_weight v.right_weight
      v.left_selected v.right_selected).2) d

/-- One rater's session: the shuffled task-index order and the current
position in it (`{"order": [...], "current_index": n}`). -/
structure Session where
  order : List Nat
  current_index : Nat
deriving DecidableEq, Repr

/-- The `rater_sessions` dict: rater identifier to session, `none` = absent. -/
def Sessions : Type := String → Option Session

/-- The content of `PROGRESS_STORE_FILE`: both top-level fields. -/
structure Snapshot where
  rater_sessions : Sessions
  aggregate_scores : ScoreDict

/-- Embedding of `save_progress(rater_sessions, aggregate_scores)`
(`pairwise_ranking.py:118-128`): writes the whole snapshot. -/
def save_progress (rs : Sessions) (ags : ScoreDict) : Snapshot :=
  ⟨rs, ags⟩

/-- Embedding of `load_progress()` (`pairwise_ranking.py:98-116`): defaults when the file is
missing; otherwise the stored sessions verbatim, and the stored scores with
every known weight absent from the snapshot backfilled to `0` (new keys are
appended in `weights` order, matching dict insertion order). -/
def load_progress (weights : List String) (file : Option Snapshot) : Snapshot :=
  match file with
  | none => ⟨fun _ => none, ⟨weights, fun _ => 0⟩⟩
  | some data =>
      let stored := data.aggregate_scores
      ⟨data.rater_sessions,
       ⟨stored.keys ++ weights.filter (fun w => decide (w ∉ stored.keys)),
        fun c => if c ∈ stored.keys then stored.val c else 0⟩⟩

/-- Swap the entries at positions `i` and `j` of a list (the Python tuple
assignment `x[i], x[j] = x[j], x[i]`). -/
def listSwap (l : List Nat) (i j : Nat) : List Nat :=
  (l.set i (l.getD j 0)).set j (l.getD i 0)

/-- The loop of `random.shuffle`: for index `i` from the argument down to `1`,
draw `j = randbelow(i+1)` (an arbitrary draw `rng i`, reduced mod `i+1` to the
legal range) and swap positions `i` and `j`. -/
def shuffleAux (rng : Nat → Nat) : Nat → List Nat → List Nat
  | 0, l => l
  | i + 1, l => shuffleAux rng i (listSwap l (i + 1) (rng (i + 1) % (i + 2)))

/-- Embedding of `random.shuffle(order)` with randomness supplied by the oracle `rng`:
Fisher–Yates from the last index `len - 1` down to `1`. -/
def shuffle (rng : Nat → Nat) (l : List Nat) : List Nat :=
  shuffleAux rng (l.length - 1) l

/-- The whole mutable state of the process: the two global dicts and the
progress file on disk (`none` when it has never been written). -/
structure AppState where
  rater_sessions : Sessions
  aggregate_scores : ScoreDict
  store_file : Option Snapshot

/-- What `GET /task` renders: either the completion page or the task page for
the selected task. -/
inductive GetTaskResult where
  | completed
  | task (t : Task)
deriving DecidableEq, Repr

/-- Embedding of `get_task(rater_id)` (`pairwise_ranking.py:139-272`): lazily create a
session with a freshly shuffled order and position `0`, persisting it; then
serve the task at `order[current_index]`, or the completion page once
`current_index` reaches the task count. List indexing is total via `getD`,
which agrees with the source while the session invariants hold. -/
def get_task (ts : List Task) (rng : Nat → Nat) (st : AppState)
    (rater_id : String) : GetTaskResult × AppState :=
  let st1 :=
    if (st.rater_sessions rater_id).isNone then
      let order := shuffle rng (List.range ts.length)
      let sessions : Sessions :=
        fun r => if r = rater_id then some ⟨order, 0⟩ else st.rater_sessions r
      { rater_sessions := sessions
        aggregate_scores := st.aggregate_scores
        store_file := some (save_progress sessions st.aggregate_scores) }
    else st
  let session := (st1.rater_sessions rater_id).getD ⟨[], 0⟩
  let current_index := session.current_index
  if current_index ≥ ts.length then
    (GetTaskResult.completed, st1)
  else
    let task_idx := session.order.getD current_index 0
    (GetTaskResult.task (ts.getD task_idx default), st1)

/-- What `POST /submit` produces: the completion page, the redirect to the
next task, or an unhandled `KeyError` (HTTP 500). -/
inductive SubmitResult where
  | completedPage
  | nextRedirect
  | keyError
deriving DecidableEq, Repr

/-- Embedding of `submit_rating` (`pairwise_ranking.py:275-338`): run the scoring block,
then advance the rater's session by one and persist; a `KeyError` (unknown
candidate mid-scoring, or unknown rater at the advance step) aborts the rest
of the handler, keeping all mutations made so far. -/
def submit_rating (ts : List Task) (st : AppState) (rater_id : String)
    (left_weight right_weight : String) (l_sel r_sel : Int) :
    SubmitResult × AppState :=
  let scored := applyVote st.aggregate_scores left_weight right_weight l_sel r_sel
  let st1 : AppState :=
    { rater_sessions := st.rater_sessions
      aggregate_scores := scored.2
      store_file := st.store_file }
  if scored.1 then
    (SubmitResult.keyError, st1)
  else
    match st.rater_sessions rater_id with
    | none => (SubmitResult.keyError, st1)
    | some session =>
        let session1 : Session := ⟨session.order, session.current_index + 1⟩
        let sessions1 : Sessions :=
          fun r => if r = rater_id then some session1 else st.rater_sessions r
        let next_index := session1.current_index
        let st2 : AppState :=
          { rater_sessions := sessions1
            aggregate_scores := st1.aggregate_scores
            store_file := some (save_progress sessions1 st1.aggregate_scores) }
        if next_index ≥ ts.length then
          (SubmitResult.completedPage, st2)
        else
          (SubmitResult.nextRedirect, st2)

/-- Embedding of `get_status(rater_id)` (`pairwise_ranking.py:349-358`): read-only; an
unseen rater reports progress `0`. Returns `(rater_id, progress, total_tasks)`. -/
def get_status (ts : List Task) (st : AppState) (rater_id : String) :
    String × Nat × Nat :=
  let progress :=
    match st.rater_sessions rater_id with
    | none => 0
    | some session => session.current_index
  (rater_id, progress, ts.length)

/-- One externally triggered operation against the mutable state. -/
inductive Op where
  | taskReq (rng : Nat → Nat) (rater_id : String)
  | statusReq (rater_id : String)
  | submitReq (rater_id left_weight right_weight : String) (l_sel r_sel : Int)

/-- The state transition of each operation (`get_status` never mutates). -/
def applyOp (ts : List Task) (st : AppState) : Op → AppState
  | Op.taskReq rng rater_id => (get_task ts rng st rater_id).2
  | Op.statusReq _ => st
  | Op.submitReq rater_id lw rw ls rs => (submit_rating ts st rater_id lw rw ls rs).2

/-- A small concrete experiment definition used by witnesses: three candidates
and one datapoint. -/
def edEx : ExperimentDefinition :=
  ⟨["w1", "w2", "w3"],
   [⟨"dp1", ⟨some "A scenic view of a mountain", some "/static/input1.jpg"⟩⟩],
   fun w =>
     if w = "w1" then ["/static/dp1_w1.jpg"]
     else if w = "w2" then ["/static/dp1_w2.jpg"]
     else ["/static/dp1_w3.jpg"]⟩

/-- A concrete zero-initialized score dict over three candidates, as built by
`default_aggregate_scores` at startup. -/
def dEx : ScoreDict :=
  ⟨["w1", "w2", "w3"], fun _ => 0⟩

/-- The initial state of a fresh process on the concrete experiment: no
sessions, zero scores, no snapshot yet. -/
def stEx0 : AppState :=
  ⟨fun _ => none, dEx, none⟩

/-- A state in which "alice" already has a session, used by witnesses. -/
def stEx1 : AppState :=
  ⟨fun r => if r = "alice" then some ⟨[1, 2, 0], 1⟩ else none, dEx,
   some ⟨fun r => if r = "alice" then some ⟨[1, 2, 0], 1⟩ else none, dEx⟩⟩

/-! ### Helper lemmas: the enumerated pair list -/

theorem combinations2_length_mul_two (l : List String) :
    2 * (combinations2 l).length = l.length * (l.length - 1) := by
  induction l with
  | nil => simp [combinations2]
  | cons x xs ih =>
    simp only [combinations2, List.length_append, List.length_map, List.length_cons]
    rw [Nat.add_sub_cancel]
    have key : xs.length * (xs.length - 1) + 2 * xs.length = (xs.length + 1) * xs.length := by
      cases hn : xs.length with
      | zero => rfl
      | succ m =>
        simp only [Nat.succ_sub_one]
        ring
    omega

theorem mem_combinations2 {l : List String} {p : String × String}
    (hp : p ∈ combinations2 l) : p.1 ∈ l ∧ p.2 ∈ l := by
  induction l with
  | nil => simp [combinations2] at hp
  | cons x xs ih =>
    simp only [combinations2, List.mem_append, List.mem_map] at hp
    rcases hp with ⟨y, hy, rfl⟩ | hp
    · exact ⟨List.mem_cons_self x xs, List.mem_cons_of_mem x hy⟩
    · rcases ih hp with ⟨h1, h2⟩
      exact ⟨List.mem_cons_of_mem x h1, List.mem_cons_of_mem x h2⟩

theorem countP_pairMatches_eq_zero {l : List String} {a b : String}
    (h : a ∉ l ∨ b ∉ l) : (combinations2 l).countP (pairMatches a b) = 0 := by
  rw [List.countP_eq_zero]
  intro p hp hmatch
  rcases mem_combinations2 hp with ⟨h1, h2⟩
  simp only [pairMatches, Bool.or_eq_true, Bool.and_eq_true, beq_iff_eq] at hmatch
  rcases hmatch with ⟨hpa, hpb⟩ | ⟨hpb, hpa⟩ <;>
    rcases h with h | h
  · exact h (hpa ▸ h1)
  · exact h (hpb ▸ h2)
  · exact h (hpa ▸ h2)
  · exact h (hpb ▸ h1)

theorem countP_pairMatches_comb2 {l : List String} (hnd : l.Nodup) {a b : String}
    (ha : a ∈ l) (hb : b ∈ l) (hab : a ≠ b) :
    (combinations2 l).countP (pairMatches a b) = 1 := by
  induction l with
  | nil => cases ha
  | cons x xs ih =>
    rcases List.nodup_cons.mp hnd with ⟨hx, hxs⟩
    rw [combinations2, List.countP_append, List.countP_map]
    by_cases hxa : x = a
    · subst hxa
      have hbxs : b ∈ xs := by
        rcases List.mem_cons.mp hb with h | h
        · exact absurd h.symm hab
        · exact h
      have hmap : List.countP (pairMatches x b ∘ fun y => (x, y)) xs =
          List.countP (fun y => y == b) xs := by
        refine List.countP_congr fun y _ => ?_
        simp [pairMatches, hab]
      rw [hmap, ← List.count_eq_countP, countP_pairMatches_eq_zero (Or.inl hx),
        List.count_eq_one_of_mem hxs hbxs]
    · by_cases hxb : x = b
      · subst hxb
        have haxs : a ∈ xs := by
          rcases List.mem_cons.mp ha with h | h
          · exact (hxa h.symm).elim
          · exact h
        have hmap : List.countP (pairMatches a x ∘ fun y => (x, y)) xs =
            List.countP (fun y => y == a) xs := by
          refine List.countP_congr fun y _ => ?_
          simp [pairMatches, fun h : x = a => hxa h]
        rw [hmap, ← List.count_eq_countP, countP_pairMatches_eq_zero (Or.inr hx),
          List.count_eq_one_of_mem hxs haxs]
      · have hmap : List.countP (pairMatches a b ∘ fun y => (x, y)) xs =
            List.countP (fun _ => false) xs := by
          refine List.countP_congr fun y _ => ?_
          simp [pairMatches, hxa, hxb]
        have haxs : a ∈ xs := by
          rcases List.mem_cons.mp ha with h | h
          · exact (hxa h.symm).elim
          · exact h
        have hbxs : b ∈ xs := by
          rcases List.mem_cons.mp hb with h | h
          · exact (hxb h.symm).elim
          · exact h
        rw [hmap, ih hxs haxs hbxs]
        simp [List.countP_false, Function.const]

/-! ### Helper lemmas: the task build loop -/

theorem tasksAux_length (o : String → List String) (w : List String)
    (dps : List Datapoint) (i : Nat) :
    (tasksAux o w i dps).length = dps.length * (combinations2 w).length := by
  induction dps generalizing i with
  | nil => simp [tasksAux]
  | cons dp rest ih =>
    simp only [tasksAux, List.length_append, List.length_map, List.length_cons, ih]
    ring

theorem countP_tasksAux (o : String → List String) (w : List String)
    (dps : List Datapoint) (i : Nat) (did a b : String) :
    (tasksAux o w i dps).countP (matchesPair did a b) =
      dps.countP (fun dp => dp.id == did) *
        (combinations2 w).countP (pairMatches a b) := by
  induction dps generalizing i with
  | nil => simp [tasksAux]
  | cons dp rest ih =>
    rw [tasksAux, List.countP_append, List.countP_map, ih, List.countP_cons]
    by_cases h : dp.id = did
    · have hinner : List.countP
          (matchesPair did a b ∘ fun p : String × String =>
            ({ datapoint_id := dp.id, input := dp.input, left_weight := p.1,
               right_weight := p.2, left_output := (o p.1).getD i "",
               right_output := (o p.2).getD i "" } : Task)) (combinations2 w) =
          (combinations2 w).countP (pairMatches a b) := by
        refine List.countP_congr fun p _ => ?_
        simp [matchesPair, pairMatches, h]
      rw [hinner]
      simp only [h, beq_self_eq_true, if_pos]
      ring
    · have hinner : List.countP
          (matchesPair did a b ∘ fun p : String × String =>
            ({ datapoint_id := dp.id, input := dp.input, left_weight := p.1,
               right_weight := p.2, left_output := (o p.1).getD i "",
               right_output := (o p.2).getD i "" } : Task)) (combinations2 w) =
          List.countP (fun _ => false) (combinations2 w) := by
        refine List.countP_congr fun p _ => ?_
        simp [matchesPair, h]
      rw [hinner]
      simp [List.countP_false, Function.const, h]

theorem tasksAux_pairs_mem (o : String → List String) (w : List String)
    (dps : List Datapoint) (i : Nat) :
    ∀ t ∈ tasksAux o w i dps,
      (t.left_weight, t.right_weight) ∈ combinations2 w := by
  induction dps generalizing i with
  | nil => simp [tasksAux]
  | cons dp rest ih =>
    intro t ht
    rw [tasksAux, List.mem_append] at ht
    rcases ht with ht | ht
    · rcases List.mem_map.mp ht with ⟨p, hp, rfl⟩
      simpa using hp
    · exact ih (i + 1) t ht

/-- C1: for every experiment definition with `W` candidates and `D` datapoints,
the task-set builder produces exactly `D * W*(W-1)/2` tasks, with exactly one
task per (datapoint, unordered pair of distinct candidates), and each task's
left/right assignment is an enumerated pair of `combinations2` (left/right
fixed by the pair's enumeration order); the builder is a pure Lean function,
so identical input yields the identical output sequence. -/
theorem tasks_complete_pairing (ed : ExperimentDefinition)
    (hW : ed.weights.Nodup) (hD : (ed.inputs_data.map Datapoint.id).Nodup) :
    (tasks ed).length =
        ed.inputs_data.length * (ed.weights.length * (ed.weights.length - 1) / 2)
    ∧ (∀ dp ∈ ed.inputs_data, ∀ a ∈ ed.weights, ∀ b ∈ ed.weights, a ≠ b →
        (tasks ed).countP (matchesPair dp.id a b) = 1)
    ∧ (∀ t ∈ tasks ed, (t.left_weight, t.right_weight) ∈ combinations2 ed.weights) := by
  refine ⟨?_, ?_, ?_⟩
  · rw [tasks, tasksAux_length]
    have h2 := combinations2_length_mul_two ed.weights
    have hC : (combinations2 ed.weights).length =
        ed.weights.length * (ed.weights.length - 1) / 2 := by omega
    rw [hC]
  · intro dp hdp a ha b hb hab
    rw [tasks, countP_tasksAux, countP_pairMatches_comb2 hW ha hb hab]
    have hcnt : ed.inputs_data.countP (fun d => d.id == dp.id) = 1 := by
      have hmem : dp.id ∈ ed.inputs_data.map Datapoint.id :=
        List.mem_map_of_mem Datapoint.id hdp
      have := List.count_eq_one_of_mem hD hmem
      rw [List.count_eq_countP, List.countP_map] at this
      simpa using this
    rw [hcnt, one_mul]
  · exact tasksAux_pairs_mem ed.outputs ed.weights ed.inputs_data 0

/-- C1 witness: on the concrete definition, the builder yields `1 * 3*2/2 = 3`
tasks and exactly one task compares `{w1, w3}` on `dp1`. -/
theorem tasks_complete_pairing_witness :
    (tasks edEx).length = 3 ∧
      (tasks edEx).countP (matchesPair "dp1" "w1" "w3") = 1 := by
  have h := tasks_complete_pairing edEx (by decide) (by decide)
  refine ⟨h.1.trans (by norm_num [edEx]), ?_⟩
  have := h.2.1 ⟨"dp1", ⟨some "A scenic view of a mountain", some "/static/input1.jpg"⟩⟩
    (by simp [edEx]) "w1" (by simp [edEx]) "w3" (by simp [edEx]) (by decide)
  simpa using this

/-! ### Helper lemmas: the score dict and the scoring block -/

theorem dictAdd_some {d : ScoreDict} {k : String} (δ : Int) (hk : k ∈ d.keys) :
    dictAdd d k δ =
      some ⟨d.keys, fun c => if c = k then d.val c + δ else d.val c⟩ := by
  simp [dictAdd, hk]

theorem dictAdd_none {d : ScoreDict} {k : String} (δ : Int) (hk : k ∉ d.keys) :
    dictAdd d k δ = none := by
  simp [dictAdd, hk]

theorem addBoth_eq (d : ScoreDict) (lw : String) (dl : Int) (rw : String)
    (dr : Int) (hl : lw ∈ d.keys) (hr : rw ∈ d.keys) :
    addBoth d lw dl rw dr =
      (false, ⟨d.keys, fun c =>
        if c = rw then (if c = lw then d.val c + dl else d.val c) + dr
        else (if c = lw then d.val c + dl else d.val c)⟩) := by
  simp [addBoth, dictAdd, hl, hr]

theorem dictAdd_keys {d d' : ScoreDict} {k : String} {δ : Int}
    (h : dictAdd d k δ = some d') : d'.keys = d.keys := by
  unfold dictAdd at h
  split_ifs at h
  cases h
  rfl

theorem addBoth_keys (d : ScoreDict) (lw : String) (dl : Int) (rw : String)
    (dr : Int) : (addBoth d lw dl rw dr).2.keys = d.keys := by
  by_cases hl : lw ∈ d.keys
  · by_cases hr : rw ∈ d.keys
    · rw [addBoth_eq d lw dl rw dr hl hr]
    · simp [addBoth, dictAdd, hl, hr]
  · simp [addBoth, dictAdd, hl]

theorem applyVote_keys (d : ScoreDict) (lw rw : String) (ls rs : Int) :
    (applyVote d lw rw ls rs).2.keys = d.keys := by
  unfold applyVote
  split_ifs <;> first | exact addBoth_keys d lw _ rw _ | rfl

theorem sum_map_update (keys : List String) (v : String → Int) (k : String)
    (δ : Int) (hk : k ∈ keys) (hnd : keys.Nodup) :
    (keys.map fun c => if c = k then v c + δ else v c).sum =
      (keys.map v).sum + δ := by
  induction keys with
  | nil => cases hk
  | cons x xs ih =>
    rcases List.nodup_cons.mp hnd with ⟨hx, hxs⟩
    rcases List.mem_cons.mp hk with h | h
    · subst h
      have hmap : (xs.map fun c => if c = k then v c + δ else v c) = xs.map v := by
        refine List.map_congr_left fun c hc => ?_
        have hck : c ≠ k := fun hck => hx (hck ▸ hc)
        simp [hck]
      simp only [List.map_cons, List.sum_cons, hmap]
      split_ifs with hkk
      · ring
      · exact absurd (by trivial) hkk
    · have hxk : x ≠ k := fun hxk => hx (hxk ▸ h)
      simp only [List.map_cons, List.sum_cons, if_neg hxk]
      rw [ih h hxs]
      ring

theorem sumScores_addBoth (d : ScoreDict) (lw : String) (dl : Int) (rw : String)
    (dr : Int) (hl : lw ∈ d.keys) (hr : rw ∈ d.keys) (hnd : d.keys.Nodup) :
    sumScores (addBoth d lw dl rw dr).2 = sumScores d + dl + dr := by
  rw [addBoth_eq d lw dl rw dr hl hr]
  show (d.keys.map fun c =>
      if c = rw then (if c = lw then d.val c + dl else d.val c) + dr
      else (if c = lw then d.val c + dl else d.val c)).sum = sumScores d + dl + dr
  rw [sum_map_update d.keys (fun c => if c = lw then d.val c + dl else d.val c)
        rw dr hr hnd,
      sum_map_update d.keys d.val lw dl hl hnd]
  rfl

theorem sumScores_applyVote (d : ScoreDict) (lw rw : String) (ls rs : Int)
    (hl : lw ∈ d.keys) (hr : rw ∈ d.keys) (hnd : d.keys.Nodup) :
    sumScores (applyVote d lw rw ls rs).2 = sumScores d + voteDelta ls rs := by
  unfold applyVote voteDelta
  split_ifs <;>
    simp [sumScores_addBoth d lw _ rw _ hl hr hnd] <;> ring

theorem sumScores_applyVotes (votes : List Vote) (d : ScoreDict)
    (hnd : d.keys.Nodup)
    (hv : ∀ v ∈ votes, v.left_weight ∈ d.keys ∧ v.right_weight ∈ d.keys) :
    sumScores (applyVotes d votes) =
      sumScores d +
        (votes.map fun v => voteDelta v.left_selected v.right_selected).sum := by
  induction votes generalizing d with
  | nil => simp [applyVotes]
  | cons v vs ih =>
    have hv0 := hv v (List.mem_cons_self v vs)
    have hkeys := applyVote_keys d v.left_weight v.right_weight
      v.left_selected v.right_selected
    have hstep := sumScores_applyVote d v.left_weight v.right_weight
      v.left_selected v.right_selected hv0.1 hv0.2 hnd
    have htail : applyVotes d (v :: vs) =
        applyVotes (applyVote d v.left_weight v.right_weight
          v.left_selected v.right_selected).2 vs := rfl
    rw [htail, ih _ (by rw [hkeys]; exact hnd)
        (fun u hu => by rw [hkeys]; exact hv u (List.mem_cons_of_mem v hu)),
      hstep]
    simp only [List.map_cons, List.sum_cons]
    ring

/-- C2: for a vote on two distinct known candidates, the scoring step of
`POST /submit` updates the scores exactly per the four-way rule — left only:
left `+1`, right `-1`; right only: left `-1`, right `+1`; both: both `+1`;
neither: both `-1` — raises no `KeyError`, adds no key, and changes no entry
other than those two candidates. -/
theorem applyVote_scoring_rule (d : ScoreDict) (lw rw : String) (ls rs : Int)
    (hl : lw ∈ d.keys) (hr : rw ∈ d.keys) (hne : lw ≠ rw) :
    (applyVote d lw rw ls rs).1 = false
    ∧ (applyVote d lw rw ls rs).2.keys = d.keys
    ∧ (ls = 1 ∧ rs = 0 →
        (applyVote d lw rw ls rs).2.val lw = d.val lw + 1
        ∧ (applyVote d lw rw ls rs).2.val rw = d.val rw - 1)
    ∧ (ls = 0 ∧ rs = 1 →
        (applyVote d lw rw ls rs).2.val lw = d.val lw - 1
        ∧ (applyVote d lw rw ls rs).2.val rw = d.val rw + 1)
    ∧ (ls = 1 ∧ rs = 1 →
        (applyVote d lw rw ls rs).2.val lw = d.val lw + 1
        ∧ (applyVote d lw rw ls rs).2.val rw = d.val rw + 1)
    ∧ (ls = 0 ∧ rs = 0 →
        (applyVote d lw rw ls rs).2.val lw = d.val lw - 1
        ∧ (applyVote d lw rw ls rs).2.val rw = d.val rw - 1)
    ∧ (∀ c, c ≠ lw → c ≠ rw → (applyVote d lw rw ls rs).2.val c = d.val c) := by
  have hrl : rw ≠ lw := fun h => hne h.symm
  unfold applyVote
  split_ifs with h1 h2 h3 h4 <;>
    [skip; skip; skip; skip;
     exact ⟨rfl, rfl, fun h => absurd h h1, fun h => absurd h h2,
       fun h => absurd h h3, fun h => absurd h h4, fun c _ _ => rfl⟩] <;>
  · rw [addBoth_eq d lw _ rw _ hl hr]
    refine ⟨rfl, rfl, ?_, ?_, ?_, ?_, fun c hc1 hc2 => by simp [hc1, hc2]⟩ <;>
      intro h <;> simp_all [hne, hrl] <;> omega

/-- C2 witness: a left-only vote on the concrete dict gives `w1` score `+1`
and `w2` score `-1`, and leaves `w3` untouched. -/
theorem applyVote_scoring_rule_witness :
    (applyVote dEx "w1" "w2" 1 0).2.val "w1" = dEx.val "w1" + 1
    ∧ (applyVote dEx "w1" "w2" 1 0).2.val "w2" = dEx.val "w2" - 1
    ∧ (applyVote dEx "w1" "w2" 1 0).2.val "w3" = dEx.val "w3" := by
  have h := applyVote_scoring_rule dEx "w1" "w2" 1 0
    (by simp [dEx]) (by simp [dEx]) (by decide)
  exact ⟨(h.2.2.1 ⟨rfl, rfl⟩).1, (h.2.2.1 ⟨rfl, rfl⟩).2,
    h.2.2.2.2.2.2 "w3" (by decide) (by decide)⟩

/-- C3: a single accepted vote on two distinct known candidates changes the
total of all scores by its table delta, which is even and lies in
`{-2, 0, +2}`; and folding any sequence of such votes from the
zero-initialized dict leaves the total equal to the sum of the per-vote
deltas. -/
theorem vote_delta_accounting :
    (∀ (d : ScoreDict) (lw rw : String) (ls rs : Int),
      d.keys.Nodup → lw ∈ d.keys → rw ∈ d.keys → lw ≠ rw →
      sumScores (applyVote d lw rw ls rs).2 - sumScores d = voteDelta ls rs
      ∧ Even (voteDelta ls rs)
      ∧ (voteDelta ls rs = -2 ∨ voteDelta ls rs = 0 ∨ voteDelta ls rs = 2))
    ∧ (∀ (weights : List String) (votes : List Vote), weights.Nodup →
        (∀ v ∈ votes, v.left_weight ∈ weights ∧ v.right_weight ∈ weights) →
        sumScores (applyVotes ⟨weights, fun _ => 0⟩ votes) =
          (votes.map fun v => voteDelta v.left_selected v.right_selected).sum) := by
  constructor
  · intro d lw rw ls rs hnd hl hr _
    refine ⟨by rw [sumScores_applyVote d lw rw ls rs hl hr hnd]; ring, ?_, ?_⟩
    · unfold voteDelta
      split_ifs
      · exact ⟨0, rfl⟩
      · exact ⟨0, rfl⟩
      · exact ⟨1, rfl⟩
      · exact ⟨-1, by ring⟩
      · exact ⟨0, rfl⟩
    · unfold voteDelta
      split_ifs <;> simp
  · intro weights votes hnd hv
    rw [sumScores_applyVotes votes ⟨weights, fun _ => 0⟩ hnd hv]
    simp [sumScores]

/-- C3 witness: a both-selected vote on the concrete dict moves the total by
`+2`, and a two-vote sequence from zero totals `2 + (-2) = 0`. -/
theorem vote_delta_accounting_witness :
    (sumScores (applyVote dEx "w1" "w2" 1 1).2 - sumScores dEx = voteDelta 1 1)
    ∧ sumScores (applyVotes ⟨["w1", "w2", "w3"], fun _ => 0⟩
        [⟨"w1", "w2", 1, 1⟩, ⟨"w2", "w3", 0, 0⟩]) =
      ([⟨"w1", "w2", 1, 1⟩, ⟨"w2", "w3", 0, 0⟩].map
        fun v : Vote => voteDelta v.left_selected v.right_selected).sum := by
  constructor
  · exact (vote_delta_accounting.1 dEx "w1" "w2" 1 1
      (by decide) (by simp [dEx]) (by simp [dEx]) (by decide)).1
  · refine vote_delta_accounting.2 ["w1", "w2", "w3"]
      [⟨"w1", "w2", 1, 1⟩, ⟨"w2", "w3", 0, 0⟩] (by decide) ?_
    intro v hv
    rcases List.mem_cons.mp hv with h | h
    · subst h; exact ⟨by simp, by simp⟩
    · rcases List.mem_cons.mp h with h | h
      · subst h; exact ⟨by simp, by simp⟩
      · cases h

/-! ### Helper lemmas: Fisher–Yates shuffling permutes the index list -/

theorem count_set_add {α : Type} [DecidableEq α] (l : List α) (i : Nat) (a : α)
    (hi : i < l.length) (b : α) :
    (l.set i a).count b + (if l[i] = b then 1 else 0) =
      l.count b + (if a = b then 1 else 0) := by
  induction l generalizing i with
  | nil => simp at hi
  | cons x xs ih =>
    cases i with
    | zero =>
      simp only [List.set_cons_zero, List.count_cons, List.getElem_cons_zero,
        beq_iff_eq]
      split_ifs <;> omega
    | succ j =>
      have hj : j < xs.length := by
        simpa using hi
      have := ih j hj
      simp only [List.set_cons_succ, List.count_cons, List.getElem_cons_succ,
        beq_iff_eq]
      split_ifs at this ⊢ <;> omega

theorem listSwap_perm (l : List Nat) (i j : Nat) (hi : i < l.length)
    (hj : j < l.length) : (listSwap l i j).Perm l := by
  rw [List.perm_iff_count]
  intro b
  unfold listSwap
  rw [List.getD_eq_getElem l 0 hj, List.getD_eq_getElem l 0 hi]
  have hjset : j < (l.set i l[j]).length := by
    rw [List.length_set]; exact hj
  have hmid : (l.set i l[j])[j] = l[j] := by
    by_cases hij : i = j
    · subst hij
      exact List.getElem_set_self hjset
    · exact List.getElem_set_ne hij hjset
  have h1 := count_set_add l i (l[j]) hi b
  have h2 := count_set_add (l.set i l[j]) j (l[i]) hjset b
  rw [hmid] at h2
  split_ifs at h1 h2 <;> omega

theorem shuffleAux_perm (rng : Nat → Nat) (i : Nat) (l : List Nat)
    (h : i < l.length) : (shuffleAux rng i l).Perm l := by
  induction i generalizing l with
  | zero => exact List.Perm.refl l
  | succ i ih =>
    have hj : rng (i + 1) % (i + 2) < l.length :=
      lt_of_le_of_lt (Nat.le_of_lt_succ (Nat.mod_lt _ (by omega))) h
    have hswap := listSwap_perm l (i + 1) (rng (i + 1) % (i + 2)) h hj
    have hlen : (listSwap l (i + 1) (rng (i + 1) % (i + 2))).length = l.length :=
      hswap.length_eq
    exact (ih _ (by omega)).trans hswap

theorem shuffle_perm (rng : Nat → Nat) (l : List Nat) :
    (shuffle rng l).Perm l := by
  unfold shuffle
  cases l with
  | nil => exact List.Perm.refl []
  | cons x xs =>
    exact shuffleAux_perm rng _ _ (by simp)

/-! ### Helper lemmas: `get_task` -/

theorem get_task_state_of_none (ts : List Task) (rng : Nat → Nat)
    (st : AppState) (rid : String) (h : st.rater_sessions rid = none) :
    (get_task ts rng st rid).2 =
      { rater_sessions := fun r =>
          if r = rid then some ⟨shuffle rng (List.range ts.length), 0⟩
          else st.rater_sessions r
        aggregate_scores := st.aggregate_scores
        store_file := some (save_progress
          (fun r =>
            if r = rid then some ⟨shuffle rng (List.range ts.length), 0⟩
            else st.rater_sessions r)
          st.aggregate_scores) } := by
  unfold get_task
  rw [h]
  simp only [Option.isNone_none, if_true]
  split_ifs <;> rfl

theorem get_task_resp_of_none (ts : List Task) (rng : Nat → Nat)
    (st : AppState) (rid : String) (h : st.rater_sessions rid = none)
    (hlen : 0 < ts.length) :
    (get_task ts rng st rid).1 =
      GetTaskResult.task
        (ts.getD ((shuffle rng (List.range ts.length)).getD 0 0) default) := by
  unfold get_task
  rw [h]
  simp only [Option.isNone_none, if_true, if_pos rfl, Option.getD_some]
  rw [if_neg (by omega)]

/-- C4: a `GET /task` call for a rater with no existing session creates one
whose order is a permutation of `[0, totalTasks)` — no duplicates, no
omissions — with current position `0`, and persists the new session (the
snapshot on disk equals the new in-memory state) before returning the first
task of the order. Randomness is an oracle `rng` driving the embedded
Fisher–Yates loop of `random.shuffle`. -/
theorem get_task_creates_valid_session (ts : List Task) (rng : Nat → Nat)
    (st : AppState) (rid : String) (h : st.rater_sessions rid = none) :
    ∃ s : Session,
      (get_task ts rng st rid).2.rater_sessions rid = some s
      ∧ s.order.Perm (List.range ts.length)
      ∧ s.order.Nodup
      ∧ (∀ k, k ∈ s.order ↔ k < ts.length)
      ∧ s.current_index = 0
      ∧ (get_task ts rng st rid).2.store_file =
          some (save_progress (get_task ts rng st rid).2.rater_sessions
            (get_task ts rng st rid).2.aggregate_scores)
      ∧ (0 < ts.length →
          (get_task ts rng st rid).1 =
            GetTaskResult.task (ts.getD (s.order.getD 0 0) default)) := by
  refine ⟨⟨shuffle rng (List.range ts.length), 0⟩, ?_,
    shuffle_perm rng (List.range ts.length),
    ((shuffle_perm rng (List.range ts.length)).symm.nodup
      (List.nodup_range ts.length)),
    fun k => ((shuffle_perm rng (List.range ts.length)).mem_iff).trans
      List.mem_range,
    rfl, ?_, fun hlen => get_task_resp_of_none ts rng st rid h hlen⟩
  · rw [get_task_state_of_none ts rng st rid h]
    simp
  · rw [get_task_state_of_none ts rng st rid h]

/-- C4 witness: on the concrete experiment and a constant-zero randomness
oracle, the session created for "alice" has an order permuting `[0, 3)` and
position `0`. -/
theorem get_task_creates_valid_session_witness :
    (((get_task (tasks edEx) (fun _ => 0) stEx0 "alice").2.rater_sessions
        "alice").getD ⟨[], 0⟩).order.Perm (List.range (tasks edEx).length)
    ∧ (((get_task (tasks edEx) (fun _ => 0) stEx0 "alice").2.rater_sessions
        "alice").getD ⟨[], 0⟩).current_index = 0 := by
  obtain ⟨s, hs, hperm, -, -, hidx, -, -⟩ :=
    get_task_creates_valid_session (tasks edEx) (fun _ => 0) stEx0 "alice" rfl
  rw [hs]
  exact ⟨hperm, hidx⟩

/-- C5: when the rater already has a session, `GET /task` leaves the whole
state untouched (order and position unchanged), and two calls — even with
different randomness oracles — return the identical task. -/
theorem get_task_repeat_stable (ts : List Task) (rng rng' : Nat → Nat)
    (st : AppState) (rid : String) (s : Session)
    (h : st.rater_sessions rid = some s) :
    (get_task ts rng st rid).2 = st
    ∧ (get_task ts rng st rid).1 = (get_task ts rng' st rid).1 := by
  unfold get_task
  rw [h]
  simp only [Option.isNone_some, Bool.false_eq_true, if_false]
  constructor
  · split_ifs <;> rfl
  · trivial

/-- C5 witness: with "alice"'s session present, a repeated `GET /task` under
two different oracles changes nothing and returns the same page. -/
theorem get_task_repeat_stable_witness :
    (get_task (tasks edEx) (fun _ => 0) stEx1 "alice").2 = stEx1
    ∧ (get_task (tasks edEx) (fun _ => 0) stEx1 "alice").1 =
        (get_task (tasks edEx) (fun n => n + 7) stEx1 "alice").1 :=
  get_task_repeat_stable (tasks edEx) (fun _ => 0) (fun n => n + 7) stEx1
    "alice" ⟨[1, 2, 0], 1⟩ rfl

/-! ### Helper lemmas: `submit_rating` -/

theorem get_task_state_of_some (ts : List Task) (rng : Nat → Nat)
    (st : AppState) (rid : String) (s : Session)
    (h : st.rater_sessions rid = some s) : (get_task ts rng st rid).2 = st := by
  unfold get_task
  rw [h]
  simp only [Option.isNone_some, Bool.false_eq_true, if_false]
  split_ifs <;> rfl

theorem addBoth_fst (d : ScoreDict) (lw : String) (dl : Int) (rw : String)
    (dr : Int) (hl : lw ∈ d.keys) (hr : rw ∈ d.keys) :
    (addBoth d lw dl rw dr).1 = false := by
  rw [addBoth_eq d lw dl rw dr hl hr]

theorem applyVote_fst (d : ScoreDict) (lw rw : String) (ls rs : Int)
    (hl : lw ∈ d.keys) (hr : rw ∈ d.keys) :
    (applyVote d lw rw ls rs).1 = false := by
  unfold applyVote
  split_ifs <;> first | exact addBoth_fst d lw _ rw _ hl hr | rfl

theorem applyVote_out_of_range (d : ScoreDict) (lw rw : String) (ls rs : Int)
    (hout : ¬((ls = 0 ∨ ls = 1) ∧ (rs = 0 ∨ rs = 1))) :
    applyVote d lw rw ls rs = (false, d) := by
  unfold applyVote
  split_ifs with h1 h2 h3 h4
  · exact absurd ⟨Or.inr h1.1, Or.inl h1.2⟩ hout
  · exact absurd ⟨Or.inl h2.1, Or.inr h2.2⟩ hout
  · exact absurd ⟨Or.inr h3.1, Or.inr h3.2⟩ hout
  · exact absurd ⟨Or.inl h4.1, Or.inl h4.2⟩ hout
  · rfl

theorem applyVote_changes (d : ScoreDict) (lw rw : String) (ls rs : Int)
    (hl : lw ∈ d.keys) (hr : rw ∈ d.keys) (hne : lw ≠ rw)
    (hls : ls = 0 ∨ ls = 1) (hrs : rs = 0 ∨ rs = 1) :
    (applyVote d lw rw ls rs).2.val lw ≠ d.val lw
    ∧ (applyVote d lw rw ls rs).2.val rw ≠ d.val rw := by
  have hrl : rw ≠ lw := fun hh => hne hh.symm
  rcases hls with h | h <;> rcases hrs with h2 | h2 <;> subst h <;> subst h2 <;>
    unfold applyVote <;> norm_num <;>
    rw [addBoth_eq d lw _ rw _ hl hr] <;>
    constructor <;> simp [hne, hrl]

/-- C6: a `POST /submit` whose vote names two known candidates but whose rater
has no session fails (an unhandled not-found `KeyError`, surfaced as a
rejected request), and does not silently create a session: the session map —
and the persisted snapshot — are exactly as before. -/
theorem submit_unknown_rater_rejected (ts : List Task) (st : AppState)
    (rid lw rw : String) (ls rs : Int)
    (hs : st.rater_sessions rid = none)
    (hl : lw ∈ st.aggregate_scores.keys) (hr : rw ∈ st.aggregate_scores.keys) :
    (submit_rating ts st rid lw rw ls rs).1 = SubmitResult.keyError
    ∧ (submit_rating ts st rid lw rw ls rs).2.rater_sessions =
        st.rater_sessions
    ∧ (submit_rating ts st rid lw rw ls rs).2.rater_sessions rid = none
    ∧ (submit_rating ts st rid lw rw ls rs).2.store_file = st.store_file := by
  have hfst := applyVote_fst st.aggregate_scores lw rw ls rs hl hr
  unfold submit_rating
  simp only [hfst, Bool.false_eq_true, if_false, hs]
  exact ⟨trivial, trivial, trivial, trivial⟩

/-- C6 witness: submitting for the unseen rater "bob" in a state with only
"alice"'s session yields the error outcome and creates no session for "bob". -/
theorem submit_unknown_rater_rejected_witness :
    (submit_rating (tasks edEx) stEx1 "bob" "w1" "w2" 1 0).1 =
        SubmitResult.keyError
    ∧ (submit_rating (tasks edEx) stEx1 "bob" "w1" "w2" 1 0).2.rater_sessions
        "bob" = none := by
  have h := submit_unknown_rater_rejected (tasks edEx) stEx1 "bob" "w1" "w2"
    1 0 rfl (by simp [stEx1, dEx]) (by simp [stEx1, dEx])
  exact ⟨h.1, h.2.2.1⟩

/-- C9: a `POST /submit` for an unseen rater with two distinct known
candidates and an in-range selection still applies the vote's deltas to the
in-memory scores before the advance step raises: the request is rejected, yet
both candidates' in-memory scores differ from their pre-request values (no
rollback), while the snapshot on disk is left as it was. -/
theorem submit_no_session_partial_scores (ts : List Task) (st : AppState)
    (rid lw rw : String) (ls rs : Int)
    (hs : st.rater_sessions rid = none)
    (hl : lw ∈ st.aggregate_scores.keys) (hr : rw ∈ st.aggregate_scores.keys)
    (hne : lw ≠ rw) (hls : ls = 0 ∨ ls = 1) (hrs : rs = 0 ∨ rs = 1) :
    (submit_rating ts st rid lw rw ls rs).1 = SubmitResult.keyError
    ∧ (submit_rating ts st rid lw rw ls rs).2.aggregate_scores =
        (applyVote st.aggregate_scores lw rw ls rs).2
    ∧ (submit_rating ts st rid lw rw ls rs).2.aggregate_scores.val lw ≠
        st.aggregate_scores.val lw
    ∧ (submit_rating ts st rid lw rw ls rs).2.aggregate_scores.val rw ≠
        st.aggregate_scores.val rw
    ∧ (submit_rating ts st rid lw rw ls rs).2.store_file = st.store_file := by
  have hfst := applyVote_fst st.aggregate_scores lw rw ls rs hl hr
  have hch := applyVote_changes st.aggregate_scores lw rw ls rs hl hr hne hls hrs
  unfold submit_rating
  simp only [hfst, Bool.false_eq_true, if_false, hs]
  exact ⟨trivial, trivial, hch.1, hch.2, trivial⟩

/-- C9 witness: "bob" (no session) votes left-only on known `w1, w2`: the
request errors but `w1`'s in-memory score moved off its prior value `0`. -/
theorem submit_no_session_partial_scores_witness :
    (submit_rating (tasks edEx) stEx1 "bob" "w1" "w2" 1 0).1 =
        SubmitResult.keyError
    ∧ (submit_rating (tasks edEx) stEx1 "bob" "w1" "w2" 1 0).2.aggregate_scores.val
        "w1" ≠ stEx1.aggregate_scores.val "w1" := by
  have h := submit_no_session_partial_scores (tasks edEx) stEx1 "bob" "w1" "w2"
    1 0 rfl (by simp [stEx1, dEx]) (by simp [stEx1, dEx]) (by decide)
    (Or.inr rfl) (Or.inl rfl)
  exact ⟨h.1, h.2.2.1⟩

/-- C10: a `POST /submit` with a selector pair outside `{0,1} × {0,1}` (for
example a parsed `"2"`): no scoring branch applies so the scores are
unchanged, yet the rater's position is still advanced by exactly one, the new
state is persisted, and a success (non-error) response is returned. -/
theorem submit_out_of_range_selector (ts : List Task) (st : AppState)
    (rid lw rw : String) (ls rs : Int) (s : Session)
    (hs : st.rater_sessions rid = some s)
    (hout : ¬((ls = 0 ∨ ls = 1) ∧ (rs = 0 ∨ rs = 1))) :
    (submit_rating ts st rid lw rw ls rs).2.aggregate_scores =
        st.aggregate_scores
    ∧ (submit_rating ts st rid lw rw ls rs).2.rater_sessions rid =
        some ⟨s.order, s.current_index + 1⟩
    ∧ (submit_rating ts st rid lw rw ls rs).2.store_file =
        some (save_progress
          (submit_rating ts st rid lw rw ls rs).2.rater_sessions
          (submit_rating ts st rid lw rw ls rs).2.aggregate_scores)
    ∧ ((submit_rating ts st rid lw rw ls rs).1 = SubmitResult.nextRedirect
       ∨ (submit_rating ts st rid lw rw ls rs).1 = SubmitResult.completedPage) := by
  have hvote := applyVote_out_of_range st.aggregate_scores lw rw ls rs hout
  unfold submit_rating
  rw [hvote]
  simp only [Bool.false_eq_true, if_false, hs]
  split_ifs with hdone
  · exact ⟨rfl, by simp, rfl, Or.inr rfl⟩
  · exact ⟨rfl, by simp, rfl, Or.inl rfl⟩

/-- C10 witness: "alice" submits with `left_selected = "2"`: scores are
untouched, her position goes from `1` to `2`, and the response is a success. -/
theorem submit_out_of_range_selector_witness :
    (submit_rating (tasks edEx) stEx1 "alice" "w1" "w2" 2 0).2.aggregate_scores =
        stEx1.aggregate_scores
    ∧ (submit_rating (tasks edEx) stEx1 "alice" "w1" "w2" 2 0).2.rater_sessions
        "alice" = some ⟨[1, 2, 0], 2⟩
    ∧ ((submit_rating (tasks edEx) stEx1 "alice" "w1" "w2" 2 0).1 =
          SubmitResult.nextRedirect
       ∨ (submit_rating (tasks edEx) stEx1 "alice" "w1" "w2" 2 0).1 =
          SubmitResult.completedPage) := by
  have h := submit_out_of_range_selector (tasks edEx) stEx1 "alice" "w1" "w2"
    2 0 ⟨[1, 2, 0], 1⟩ rfl (by intro hk; rcases hk.1 with h | h <;> omega)
  exact ⟨h.1, h.2.1, h.2.2.2⟩

/-! ### Helper lemmas: sessions across operations -/

theorem submit_session_step (ts : List Task) (st : AppState)
    (rid2 lw rw : String) (ls rs : Int) (rid : String) (s : Session)
    (h : st.rater_sessions rid = some s) :
    ∃ t : Session,
      (submit_rating ts st rid2 lw rw ls rs).2.rater_sessions rid = some t
      ∧ t.order = s.order ∧ s.current_index ≤ t.current_index := by
  unfold submit_rating
  cases hsc : (applyVote st.aggregate_scores lw rw ls rs).1 with
  | true => exact ⟨s, by simp [hsc, h], rfl, le_refl _⟩
  | false =>
    cases hs2 : st.rater_sessions rid2 with
    | none => exact ⟨s, by simp [hsc, hs2, h], rfl, le_refl _⟩
    | some s2 =>
      by_cases hr : rid = rid2
      · subst hr
        rw [h] at hs2
        cases hs2
        refine ⟨⟨s.order, s.current_index + 1⟩, ?_, rfl, Nat.le_succ _⟩
        simp only [hsc, Bool.false_eq_true, if_false, h]
        split_ifs <;> simp
      · refine ⟨s, ?_, rfl, le_refl _⟩
        simp only [hsc, Bool.false_eq_true, if_false, hs2]
        split_ifs <;> simp [hr, h]

theorem applyOp_session_mono (ts : List Task) (st : AppState) (op : Op)
    (rid : String) (s : Session) (h : st.rater_sessions rid = some s) :
    ∃ t : Session, (applyOp ts st op).rater_sessions rid = some t
      ∧ t.order = s.order ∧ s.current_index ≤ t.current_index := by
  cases op with
  | taskReq rng rid2 =>
    show ∃ t, (get_task ts rng st rid2).2.rater_sessions rid = some t ∧ _
    cases hs2 : st.rater_sessions rid2 with
    | none =>
      have hne : rid ≠ rid2 := fun hh => by
        rw [hh, hs2] at h
        cases h
      rw [get_task_state_of_none ts rng st rid2 hs2]
      exact ⟨s, by simp [hne, h], rfl, le_refl _⟩
    | some s2 =>
      rw [get_task_state_of_some ts rng st rid2 s2 hs2]
      exact ⟨s, h, rfl, le_refl _⟩
  | statusReq rid2 => exact ⟨s, h, rfl, le_refl _⟩
  | submitReq rid2 lw rw ls rs => exact submit_session_step ts st rid2 lw rw ls rs rid s h

/-- C7: sessions are never deleted or replaced, and the current position is
monotone: every operation (task retrieval, status, submit) preserves each
existing session's order and never decreases its position, over any operation
sequence; an accepted submission advances the position by exactly one; and
loading a snapshot supplies each session's stored value verbatim. -/
theorem session_never_deleted_position_monotone (ts : List Task) :
    (∀ (st : AppState) (op : Op) (rid : String) (s : Session),
        st.rater_sessions rid = some s →
        ∃ t : Session, (applyOp ts st op).rater_sessions rid = some t
          ∧ t.order = s.order ∧ s.current_index ≤ t.current_index)
    ∧ (∀ (st : AppState) (ops : List Op) (rid : String) (s : Session),
        st.rater_sessions rid = some s →
        ∃ t : Session, (ops.foldl (applyOp ts) st).rater_sessions rid = some t
          ∧ t.order = s.order ∧ s.current_index ≤ t.current_index)
    ∧ (∀ (st : AppState) (rid lw rw : String) (ls rs : Int) (s : Session),
        st.rater_sessions rid = some s →
        lw ∈ st.aggregate_scores.keys → rw ∈ st.aggregate_scores.keys →
        (submit_rating ts st rid lw rw ls rs).2.rater_sessions rid =
          some ⟨s.order, s.current_index + 1⟩)
    ∧ (∀ (weights : List String) (snap : Snapshot),
        (load_progress weights (some snap)).rater_sessions =
          snap.rater_sessions) := by
  refine ⟨applyOp_session_mono ts, ?_, ?_, fun w snap => rfl⟩
  · intro st ops
    induction ops generalizing st with
    | nil => exact fun rid s h => ⟨s, h, rfl, le_refl _⟩
    | cons op rest ih =>
      intro rid s h
      obtain ⟨t, ht, horder, hle⟩ := applyOp_session_mono ts st op rid s h
      obtain ⟨u, hu, horder2, hle2⟩ := ih (applyOp ts st op) rid t ht
      exact ⟨u, hu, horder2.trans horder, le_trans hle hle2⟩
  · intro st rid lw rw ls rs s hs hl hr
    have hfst := applyVote_fst st.aggregate_scores lw rw ls rs hl hr
    unfold submit_rating
    simp only [hfst, Bool.false_eq_true, if_false, hs]
    split_ifs <;> simp

/-- C7 witness: after a task request, a status request and an accepted
submission, "alice"'s session still exists with its original order and a
position that has not decreased. -/
theorem session_never_deleted_position_monotone_witness :
    ((([Op.taskReq (fun _ => 0) "alice", Op.statusReq "alice",
        Op.submitReq "alice" "w1" "w2" 1 0]).foldl (applyOp (tasks edEx))
        stEx1).rater_sessions "alice").isSome = true := by
  obtain ⟨t, ht, -, -⟩ :=
    (session_never_deleted_position_monotone (tasks edEx)).2.1 stEx1
      [Op.taskReq (fun _ => 0) "alice", Op.statusReq "alice",
       Op.submitReq "alice" "w1" "w2" 1 0] "alice" ⟨[1, 2, 0], 1⟩ rfl
  rw [ht]
  rfl

/-- C8: saving a snapshot and loading it back (a process restart) reproduces
the identical state: the session map is reproduced verbatim, and the score
dict has the same keys and the same value at every key, provided every known
weight has a score entry (which startup initialization guarantees). -/
theorem save_load_roundtrip (weights : List String) (sessions : Sessions)
    (scores : ScoreDict) (h : ∀ w ∈ weights, w ∈ scores.keys) :
    (load_progress weights (some (save_progress sessions scores))).rater_sessions =
        sessions
    ∧ (load_progress weights
        (some (save_progress sessions scores))).aggregate_scores.keys =
        scores.keys
    ∧ ∀ c ∈ scores.keys,
        (load_progress weights
          (some (save_progress sessions scores))).aggregate_scores.val c =
          scores.val c := by
  refine ⟨rfl, ?_, fun c hc => ?_⟩
  · show scores.keys ++ weights.filter (fun w => decide (w ∉ scores.keys)) =
      scores.keys
    have hnil : weights.filter (fun w => decide (w ∉ scores.keys)) = [] := by
      rw [List.filter_eq_nil_iff]
      intro a ha
      simp [h a ha]
    rw [hnil, List.append_nil]
  · show (if c ∈ scores.keys then scores.val c else 0) = scores.val c
    rw [if_pos hc]

/-- C8 witness: the concrete snapshot of "alice"'s session and the zero score
dict survives a save/load round trip unchanged. -/
theorem save_load_roundtrip_witness :
    (load_progress ["w1", "w2", "w3"]
        (some (save_progress stEx1.rater_sessions dEx))).rater_sessions =
      stEx1.rater_sessions
    ∧ (load_progress ["w1", "w2", "w3"]
        (some (save_progress stEx1.rater_sessions dEx))).aggregate_scores.keys =
      dEx.keys
    ∧ (load_progress ["w1", "w2", "w3"]
        (some (save_progress stEx1.rater_sessions dEx))).aggregate_scores.val
        "w1" = dEx.val "w1" := by
  have h := save_load_roundtrip ["w1", "w2", "w3"] stEx1.rater_sessions dEx
    (by intro w hw; simpa [dEx] using hw)
  exact ⟨h.1, h.2.1, h.2.2 "w1" (by simp [dEx])⟩

end PairwiseRanking
